import Mathlib

/-!
Shallow embedding of the WorkspaceEdit application engine
(`applyWorkspaceEdit`, `applyFileOperation`, `applyTextEdits`,
`formatWorkspaceEdit`).

Strings of the host language are modelled as `List Char` (`JStr`): a
sequence of code units, with `substring` as `take`/`drop`, `split('\n')`
as `List.splitOn '\n'` and `join('\n')` as `List.intercalate ['\n']`.
The filesystem is an association list from path to content; every
filesystem access and every log call is recorded as an `Event`, and a
thrown error is an `Except.error` carried in an `Outcome` together with
the filesystem state and the events that happened before the throw.
`urlToFilePath` and `path.relative(process.cwd(), ·)` are external
collaborators, passed in as an `Env` of abstract functions.
-/

namespace LspCli

/-- Host-language string: a list of code units. -/
abbrev JStr := List Char

/-- Position in a document: 0-based line and character. -/
structure Position where
  line : Nat
  character : Nat
deriving DecidableEq

/-- Range in a document: start and end positions. -/
structure Range where
  start : Position
  «end» : Position
deriving DecidableEq

/-- One text edit: a range to replace and the replacement text. -/
structure TextEdit where
  range : Range
  newText : JStr
deriving DecidableEq

/-- File operation payload: `kind` together with the optional `uri`,
`oldUri`, `newUri` properties. -/
structure FileOperation where
  kind : String
  uri : Option String
  oldUri : Option String
  newUri : Option String
deriving DecidableEq

/-- An entry of `documentChanges`: either a file operation (it has a
`kind` property) or a text-document edit. -/
inductive DocumentChange where
  | fileOp (op : FileOperation)
  | textDocEdit (uri : String) (edits : List TextEdit)
deriving DecidableEq

/-- A WorkspaceEdit: optional `documentChanges` list and optional legacy
`changes` mapping (modelled as an association list in wire order). -/
structure WorkspaceEdit where
  documentChanges : Option (List DocumentChange)
  changes : Option (List (String × List TextEdit))
deriving DecidableEq

/-- External collaborators: URI-to-path resolution and relative-path
display (`path.relative(process.cwd(), ·)`). -/
structure Env where
  urlToFilePath : String → String
  relativize : String → String

/-- Filesystem state: association list from path to content. -/
abbrev FileSystem := List (String × JStr)

/-- Observable action: a log line or a filesystem access. -/
inductive Event where
  | log (msg : String)
  | fsRead (path : String)
  | fsWrite (path : String)
  | fsDelete (path : String)
  | fsRename (oldPath newPath : String)
deriving DecidableEq

/-- Whether an event is a filesystem action (anything but a log line). -/
def Event.isFs : Event → Bool
  | .log _ => false
  | _ => true

/-- Look a path up in the filesystem. -/
def fsLookup (fs : FileSystem) (p : String) : Option JStr :=
  match fs with
  | [] => none
  | (q, c) :: rest => if q = p then some c else fsLookup rest p

/-- Write (create or overwrite) a file. -/
def fsStore (fs : FileSystem) (p : String) (c : JStr) : FileSystem :=
  match fs with
  | [] => [(p, c)]
  | (q, d) :: rest => if q = p then (p, c) :: rest else (q, d) :: fsStore rest p c

/-- Delete a file. -/
def fsRemove (fs : FileSystem) (p : String) : FileSystem :=
  fs.filter (fun kv => kv.1 != p)

/-- Rename a file. -/
def fsMove (fs : FileSystem) (o n : String) : FileSystem :=
  match fsLookup fs o with
  | none => fs
  | some c => fsStore (fsRemove fs o) n c

/-- Result of running one piece of the engine: final filesystem, the
events that happened (in order), and the returned value or the thrown
error message. -/
structure Outcome (α : Type) where
  fs : FileSystem
  events : List Event
  result : Except String α

/-- Log-line marker used in preview mode. -/
def dryPre (dryRun : Bool) : String :=
  if dryRun then "[DRY RUN] " else ""

/-- Embedding of `applyFileOperation`: switch on `kind`, check required
locations, log the action, then (outside preview mode) act. An unknown
`kind` falls through the switch and returns without any action. -/
def applyFileOperation (env : Env) (op : FileOperation) (dryRun : Bool)
    (fs : FileSystem) : Outcome Unit :=
  if op.kind == "create" then
    match op.uri with
    | none => ⟨fs, [], .error "CreateFile missing uri"⟩
    | some u =>
      let filePath := env.urlToFilePath u
      let ev := Event.log (dryPre dryRun ++ "Create file: " ++ filePath)
      if dryRun then ⟨fs, [ev], .ok ()⟩
      else ⟨fsStore fs filePath [], [ev, Event.fsWrite filePath], .ok ()⟩
  else if op.kind == "delete" then
    match op.uri with
    | none => ⟨fs, [], .error "DeleteFile missing uri"⟩
    | some u =>
      let filePath := env.urlToFilePath u
      let ev := Event.log (dryPre dryRun ++ "Delete file: " ++ filePath)
      if dryRun then ⟨fs, [ev], .ok ()⟩
      else ⟨fsRemove fs filePath, [ev, Event.fsDelete filePath], .ok ()⟩
  else if op.kind == "rename" then
    match op.oldUri, op.newUri with
    | some o, some n =>
      let oldPath := env.urlToFilePath o
      let newPath := env.urlToFilePath n
      let ev := Event.log (dryPre dryRun ++ "Rename file: " ++ oldPath ++ " -> " ++ newPath)
      if dryRun then ⟨fs, [ev], .ok ()⟩
      else ⟨fsMove fs oldPath newPath, [ev, Event.fsRename oldPath newPath], .ok ()⟩
    | _, _ => ⟨fs, [], .error "RenameFile missing oldUri or newUri"⟩
  else ⟨fs, [], .ok ()⟩

/-- Comparator of the edit sort: `a` may come before `b` exactly when the
numeric comparator `(b.start.line - a.start.line, then b.start.character -
a.start.character)` is not positive, i.e. descending start positions. -/
def editBefore (a b : TextEdit) : Bool :=
  decide (b.range.start.line < a.range.start.line ∨
    (b.range.start.line = a.range.start.line ∧
      b.range.start.character ≤ a.range.start.character))

/-- Embedding of `[...edits].sort(comparator)`: a stable sort by
descending `range.start.line`, ties by descending `range.start.character`. -/
def sortEdits (edits : List TextEdit) : List TextEdit :=
  edits.mergeSort editBefore

/-- Application of one `TextEdit` to the line array (the body of the
per-edit loop of `applyTextEdits`): same-line edits rebuild one line,
multi-line edits splice the inclusive line range with the re-split of
start-line-head ++ newText ++ end-line-tail. -/
def applyOneEdit (lines : List JStr) (edit : TextEdit) : List JStr :=
  let start := edit.range.start
  let stop := edit.range.«end»
  if start.line = stop.line then
    let line := lines.getD start.line []
    let before := line.take start.character
    let after := line.drop stop.character
    lines.set start.line (before ++ edit.newText ++ after)
  else
    let startLine := lines.getD start.line []
    let endLine := lines.getD stop.line []
    let beforeStart := startLine.take start.character
    let afterEnd := endLine.drop stop.character
    let newLines := (beforeStart ++ edit.newText ++ afterEnd).splitOn '\n'
    lines.take start.line ++ newLines ++ lines.drop (stop.line + 1)

/-- The edit loop of `applyTextEdits`: fold `applyOneEdit` over the
sorted (bottom-to-top) edit list. -/
def applyEditsToLines (edits : List TextEdit) (lines : List JStr) : List JStr :=
  (sortEdits edits).foldl applyOneEdit lines

/-- Content-level non-preview behaviour of `applyTextEdits`: split on
line breaks, apply all edits bottom-to-top, join with line breaks. -/
def applyContentEdits (content : JStr) (edits : List TextEdit) : JStr :=
  List.intercalate ['\n'] (applyEditsToLines edits (content.splitOn '\n'))

/-- The first log line of `applyTextEdits`. -/
def appliedHeader (dryRun : Bool) (n : Nat) (filePath : String) : String :=
  dryPre dryRun ++ "Applying " ++ toString n ++ " edits to " ++ filePath

/-- One preview log line of `applyTextEdits`: 1-based start and end line,
0-based characters, and literal replacement text. -/
def dryRunLine (edit : TextEdit) : String :=
  "  [DRY RUN] " ++ toString (edit.range.start.line + 1) ++ ":" ++
    toString edit.range.start.character ++ "-" ++
    toString (edit.range.«end».line + 1) ++ ":" ++
    toString edit.range.«end».character ++ ": \"" ++
    String.mk edit.newText ++ "\""

/-- Embedding of `applyTextEdits`: empty batch is an immediate 0; preview
mode logs one line per edit, iterating `sortedEdits.reverse()`; otherwise
read the file, apply the sorted edits to its line array, write back. -/
def applyTextEdits (filePath : String) (edits : List TextEdit)
    (dryRun : Bool) (fs : FileSystem) : Outcome Nat :=
  if edits.length = 0 then ⟨fs, [], .ok 0⟩
  else
    let hdr := Event.log (appliedHeader dryRun edits.length filePath)
    let sortedEdits := sortEdits edits
    if dryRun then
      ⟨fs, hdr :: (sortedEdits.reverse.map fun e => Event.log (dryRunLine e)),
        .ok edits.length⟩
    else
      match fsLookup fs filePath with
      | none => ⟨fs, [hdr, Event.fsRead filePath], .error ("failed to read " ++ filePath)⟩
      | some content =>
        ⟨fsStore fs filePath (applyContentEdits content edits),
          [hdr, Event.fsRead filePath, Event.fsWrite filePath],
          .ok edits.length⟩

/-- The `documentChanges` loop of `applyWorkspaceEdit`: file operations
run for effect only; text-document edits also push a
`(relative path, applied count)` result entry. A thrown error stops the
loop and is propagated. -/
def applyDocumentChanges (env : Env) (changes : List DocumentChange)
    (dryRun : Bool) (fs : FileSystem) : Outcome (List (String × Nat)) :=
  match changes with
  | [] => ⟨fs, [], .ok []⟩
  | .fileOp op :: rest =>
    let o := applyFileOperation env op dryRun fs
    match o.result with
    | .error msg => ⟨o.fs, o.events, .error msg⟩
    | .ok _ =>
      let o2 := applyDocumentChanges env rest dryRun o.fs
      ⟨o2.fs, o.events ++ o2.events, o2.result⟩
  | .textDocEdit uri edits :: rest =>
    let filePath := env.urlToFilePath uri
    let o := applyTextEdits filePath edits dryRun fs
    match o.result with
    | .error msg => ⟨o.fs, o.events, .error msg⟩
    | .ok n =>
      let o2 := applyDocumentChanges env rest dryRun o.fs
      ⟨o2.fs, o.events ++ o2.events,
        o2.result.map fun rs => (env.relativize filePath, n) :: rs⟩

/-- The legacy `changes` loop of `applyWorkspaceEdit`: every mapping
entry is a text-edit batch. -/
def applyLegacyChanges (env : Env) (cs : List (String × List TextEdit))
    (dryRun : Bool) (fs : FileSystem) : Outcome (List (String × Nat)) :=
  match cs with
  | [] => ⟨fs, [], .ok []⟩
  | (uri, edits) :: rest =>
    let filePath := env.urlToFilePath uri
    let o := applyTextEdits filePath edits dryRun fs
    match o.result with
    | .error msg => ⟨o.fs, o.events, .error msg⟩
    | .ok n =>
      let o2 := applyLegacyChanges env rest dryRun o.fs
      ⟨o2.fs, o.events ++ o2.events,
        o2.result.map fun rs => (env.relativize filePath, n) :: rs⟩

/-- Embedding of `applyWorkspaceEdit`: `documentChanges` when present,
else the legacy `changes` mapping, else nothing. -/
def applyWorkspaceEdit (env : Env) (edit : WorkspaceEdit) (dryRun : Bool)
    (fs : FileSystem) : Outcome (List (String × Nat)) :=
  match edit.documentChanges with
  | some dcs => applyDocumentChanges env dcs dryRun fs
  | none =>
    match edit.changes with
    | some cs => applyLegacyChanges env cs dryRun fs
    | none => ⟨fs, [], .ok []⟩

/-- One display line of `formatWorkspaceEdit` for a text edit. -/
def formatTextEditLine (edit : TextEdit) : String :=
  "  " ++ toString (edit.range.start.line + 1) ++ ":" ++
    toString edit.range.start.character ++ "-" ++
    toString (edit.range.«end».line + 1) ++ ":" ++
    toString edit.range.«end».character ++ ": \"" ++
    String.mk edit.newText ++ "\""

/-- Display lines of `formatWorkspaceEdit` for one file operation: a
recognised kind with its required locations present yields one line,
anything else yields none. -/
def formatFileOp (env : Env) (op : FileOperation) : List String :=
  if op.kind == "create" then
    match op.uri with
    | some u => ["Create: " ++ env.urlToFilePath u]
    | none => []
  else if op.kind == "delete" then
    match op.uri with
    | some u => ["Delete: " ++ env.urlToFilePath u]
    | none => []
  else if op.kind == "rename" then
    match op.oldUri, op.newUri with
    | some o, some n =>
      ["Rename: " ++ env.urlToFilePath o ++ " -> " ++ env.urlToFilePath n]
    | _, _ => []
  else []

/-- Display lines of `formatWorkspaceEdit` for one `documentChanges`
entry. -/
def formatChangeLines (env : Env) : DocumentChange → List String
  | .fileOp op => formatFileOp env op
  | .textDocEdit uri edits =>
    ("Edit " ++ env.urlToFilePath uri ++ ":") :: edits.map formatTextEditLine

/-- Embedding of `formatWorkspaceEdit`: render the plan as display lines
joined with line breaks, without touching anything. -/
def formatWorkspaceEdit (env : Env) (edit : WorkspaceEdit) : String :=
  let lines : List String :=
    match edit.documentChanges with
    | some dcs => dcs.flatMap (formatChangeLines env)
    | none =>
      match edit.changes with
      | some cs =>
        cs.flatMap fun (uri, edits) =>
          ("Edit " ++ env.urlToFilePath uri ++ ":") :: edits.map formatTextEditLine
      | none => []
  String.intercalate "\n" lines

/-- Result entries of a `documentChanges` list: one `(relative path,
edit count)` pair per text-document edit entry, in encounter order; file
operations contribute none. -/
def dcResults (env : Env) (changes : List DocumentChange) : List (String × Nat) :=
  changes.filterMap fun c =>
    match c with
    | .fileOp _ => none
    | .textDocEdit uri edits =>
      some (env.relativize (env.urlToFilePath uri), edits.length)

/-- Result entries of a legacy `changes` mapping: one pair per entry. -/
def legacyResults (env : Env) (cs : List (String × List TextEdit)) :
    List (String × Nat) :=
  cs.map fun (uri, edits) =>
    (env.relativize (env.urlToFilePath uri), edits.length)

/-- Result entries an edit plan produces: one `(relative path,
edit count)` pair per text-edit batch, in encounter order. -/
def textBatchResults (env : Env) (edit : WorkspaceEdit) : List (String × Nat) :=
  match edit.documentChanges with
  | some dcs => dcResults env dcs
  | none =>
    match edit.changes with
    | some cs => legacyResults env cs
    | none => []

/-- Identity collaborators, for concrete instantiations. -/
def envId : Env := ⟨id, id⟩

/-! ### Helper lemmas -/

/-- The sort comparator is transitive. -/
lemma editBefore_trans (a b c : TextEdit) :
    editBefore a b = true → editBefore b c = true → editBefore a c = true := by
  simp only [editBefore, decide_eq_true_eq]
  omega

/-- The sort comparator is total. -/
lemma editBefore_total (a b : TextEdit) :
    (editBefore a b || editBefore b a) = true := by
  simp only [editBefore, Bool.or_eq_true, decide_eq_true_eq]
  omega

/-- Looking up a path just stored finds the stored content. -/
lemma fsLookup_fsStore_self (fs : FileSystem) (p : String) (c : JStr) :
    fsLookup (fsStore fs p c) p = some c := by
  induction fs with
  | nil => simp [fsStore, fsLookup]
  | cons kv rest ih =>
    by_cases h : kv.1 = p
    · simp [fsStore, fsLookup, h]
    · simp [fsStore, fsLookup, h, ih]

/-- Splitting never produces an empty list of pieces. -/
lemma splitOn_ne_nil (s : JStr) : s.splitOn '\n' ≠ [] := by
  simpa [List.splitOn] using List.splitOnP_ne_nil (· == '\n') s

/-! ### C1 -/

unseal List.merge List.mergeSort in
/-- C1: `applyTextEdits` sorts the edit batch by descending
`range.start.line`, ties by descending `range.start.character` (the
sorted list is a permutation of the input, pairwise in that descending
order), and applies the edits in that bottom-to-top order; on the file
`["abc","def","ghi"]` the two example edits yield `["aXc","def","Yhi"]`,
identical to applying each edit independently against the original
content's coordinates (either one-at-a-time order gives that result). -/
theorem C1_bottom_up_order :
    (∀ edits : List TextEdit,
      List.Perm (sortEdits edits) edits ∧
      (sortEdits edits).Pairwise (fun a b =>
        b.range.start.line < a.range.start.line ∨
          (b.range.start.line = a.range.start.line ∧
            b.range.start.character ≤ a.range.start.character)) ∧
      ∀ lines : List JStr,
        applyEditsToLines edits lines = (sortEdits edits).foldl applyOneEdit lines) ∧
    (sortEdits [⟨⟨⟨0,1⟩,⟨0,2⟩⟩, ['X']⟩, ⟨⟨⟨2,0⟩,⟨2,1⟩⟩, ['Y']⟩] =
        [⟨⟨⟨2,0⟩,⟨2,1⟩⟩, ['Y']⟩, ⟨⟨⟨0,1⟩,⟨0,2⟩⟩, ['X']⟩] ∧
      applyEditsToLines [⟨⟨⟨0,1⟩,⟨0,2⟩⟩, ['X']⟩, ⟨⟨⟨2,0⟩,⟨2,1⟩⟩, ['Y']⟩]
          [['a','b','c'],['d','e','f'],['g','h','i']] =
        [['a','X','c'],['d','e','f'],['Y','h','i']] ∧
      applyOneEdit (applyOneEdit [['a','b','c'],['d','e','f'],['g','h','i']]
          ⟨⟨⟨0,1⟩,⟨0,2⟩⟩, ['X']⟩) ⟨⟨⟨2,0⟩,⟨2,1⟩⟩, ['Y']⟩ =
        [['a','X','c'],['d','e','f'],['Y','h','i']] ∧
      applyOneEdit (applyOneEdit [['a','b','c'],['d','e','f'],['g','h','i']]
          ⟨⟨⟨2,0⟩,⟨2,1⟩⟩, ['Y']⟩) ⟨⟨⟨0,1⟩,⟨0,2⟩⟩, ['X']⟩ =
        [['a','X','c'],['d','e','f'],['Y','h','i']]) := by
  constructor
  · intro edits
    refine ⟨List.mergeSort_perm edits editBefore, ?_, fun _ => rfl⟩
    have h := List.sorted_mergeSort editBefore_trans editBefore_total edits
    exact h.imp fun hab => by
      simpa [editBefore, decide_eq_true_eq] using hab
  · exact ⟨by decide, by decide, by decide, by decide⟩

/-! ### C2 -/

unseal List.merge List.mergeSort in
/-- C2: a multi-line `TextEdit` (distinct start and end lines), applied
through `applyTextEdits` in non-preview mode on an in-bounds range,
returns 1 and rewrites the file to the splice of the inclusive line range
`[start.line, end.line]` with the line-break re-split of
start-line-head ++ newText ++ end-line-tail; concretely,
`"one\ntwo\nthree"` with range `(0,3)-(2,0)` and newText `"X\nY"` becomes
`"oneX\nYthree"`. -/
theorem C2_multiline_splice :
    (∀ (filePath : String) (fs : FileSystem) (content : JStr) (e : TextEdit),
      fsLookup fs filePath = some content →
      e.range.start.line ≠ e.range.«end».line →
      e.range.start.line < (content.splitOn '\n').length →
      e.range.«end».line < (content.splitOn '\n').length →
      (applyTextEdits filePath [e] false fs).result = .ok 1 ∧
      fsLookup (applyTextEdits filePath [e] false fs).fs filePath =
        some (List.intercalate ['\n']
          ((content.splitOn '\n').take e.range.start.line ++
            (((content.splitOn '\n').getD e.range.start.line []).take
                e.range.start.character ++ e.newText ++
              ((content.splitOn '\n').getD e.range.«end».line []).drop
                e.range.«end».character).splitOn '\n' ++
            (content.splitOn '\n').drop (e.range.«end».line + 1)))) ∧
    applyContentEdits "one\ntwo\nthree".toList [⟨⟨⟨0,3⟩,⟨2,0⟩⟩, ['X','\n','Y']⟩] =
      "oneX\nYthree".toList := by
  constructor
  · intro filePath fs content e hread hne _ _
    have h1 : (applyTextEdits filePath [e] false fs) =
        ⟨fsStore fs filePath (applyContentEdits content [e]),
          [Event.log (appliedHeader false 1 filePath),
            Event.fsRead filePath, Event.fsWrite filePath],
          .ok 1⟩ := by
      simp [applyTextEdits, hread]
    rw [h1]
    refine ⟨rfl, ?_⟩
    rw [fsLookup_fsStore_self]
    have h2 : applyContentEdits content [e] =
        List.intercalate ['\n'] (applyOneEdit (content.splitOn '\n') e) := by
      simp [applyContentEdits, applyEditsToLines, sortEdits]
    rw [h2, applyOneEdit, if_neg hne]
  · decide

/-- Witness for C2 at the example input: range `(0,3)-(2,0)`, newText
`"X\nY"` on `"one\ntwo\nthree"` gives `"oneX\nYthree"`. -/
theorem C2_multiline_splice_witness :
    (applyTextEdits "f" [⟨⟨⟨0,3⟩,⟨2,0⟩⟩, ['X','\n','Y']⟩] false
        [("f", "one\ntwo\nthree".toList)]).result = .ok 1 ∧
    fsLookup (applyTextEdits "f" [⟨⟨⟨0,3⟩,⟨2,0⟩⟩, ['X','\n','Y']⟩] false
        [("f", "one\ntwo\nthree".toList)]).fs "f" = some ("oneX\nYthree".toList) := by
  have h := C2_multiline_splice.1 "f" [("f", "one\ntwo\nthree".toList)]
    ("one\ntwo\nthree".toList) ⟨⟨⟨0,3⟩,⟨2,0⟩⟩, ['X','\n','Y']⟩
    (by decide) (by decide) (by decide) (by decide)
  exact ⟨h.1, by rw [h.2]; decide⟩

/-! ### C3 -/

unseal List.merge List.mergeSort in
/-- C3 counterexample: on the batch with edits starting at `(0,1)` and
`(2,0)`, the preview log lines are not in the sorted bottom-to-top order:
the rendered event list differs from the header followed by the sorted
edits' description lines. -/
theorem C3_counterexample :
    (applyTextEdits "f" [⟨⟨⟨0,1⟩,⟨0,2⟩⟩, ['X']⟩, ⟨⟨⟨2,0⟩,⟨2,1⟩⟩, ['Y']⟩]
        true []).events ≠
      Event.log (appliedHeader true 2 "f") ::
        (sortEdits [⟨⟨⟨0,1⟩,⟨0,2⟩⟩, ['X']⟩, ⟨⟨⟨2,0⟩,⟨2,1⟩⟩, ['Y']⟩]).map
          (fun e => Event.log (dryRunLine e)) := by decide

/-- C3 (amended): in preview mode `applyTextEdits` renders one
description line per edit (1-based start and end lines, characters and
the literal replacement text) preceded by a header, but in the reverse of
the sorted application order — ascending `range.start.line`, ties by
ascending `range.start.character` (top-to-bottom) — and returns the edit
count. -/
theorem C3_preview_order :
    ∀ (filePath : String) (edits : List TextEdit) (fs : FileSystem),
      edits ≠ [] →
      (applyTextEdits filePath edits true fs).events =
        Event.log (appliedHeader true edits.length filePath) ::
          (sortEdits edits).reverse.map (fun e => Event.log (dryRunLine e)) ∧
      (applyTextEdits filePath edits true fs).events.length = edits.length + 1 ∧
      List.Perm (sortEdits edits).reverse edits ∧
      ((sortEdits edits).reverse).Pairwise (fun a b =>
        a.range.start.line < b.range.start.line ∨
          (a.range.start.line = b.range.start.line ∧
            a.range.start.character ≤ b.range.start.character)) ∧
      (applyTextEdits filePath edits true fs).result = .ok edits.length := by
  intro filePath edits fs h
  have hlen : ¬ edits.length = 0 := by simpa [List.length_eq_zero] using h
  have hperm : List.Perm (sortEdits edits).reverse edits :=
    (List.reverse_perm _).trans (List.mergeSort_perm edits editBefore)
  refine ⟨by simp [applyTextEdits, hlen], ?_, hperm, ?_, by simp [applyTextEdits, hlen]⟩
  · simp [applyTextEdits, hlen, sortEdits,
      (List.mergeSort_perm edits editBefore).length_eq]
  · rw [List.pairwise_reverse]
    have h := List.sorted_mergeSort editBefore_trans editBefore_total edits
    exact h.imp fun hab => by
      simpa [editBefore, decide_eq_true_eq] using hab

/-- Witness for C3 (amended) at a two-edit batch. -/
theorem C3_preview_order_witness :
    (applyTextEdits "f" [⟨⟨⟨0,1⟩,⟨0,2⟩⟩, ['X']⟩, ⟨⟨⟨2,0⟩,⟨2,1⟩⟩, ['Y']⟩]
        true []).events =
      Event.log (appliedHeader true 2 "f") ::
        (sortEdits [⟨⟨⟨0,1⟩,⟨0,2⟩⟩, ['X']⟩, ⟨⟨⟨2,0⟩,⟨2,1⟩⟩, ['Y']⟩]).reverse.map
          (fun e => Event.log (dryRunLine e)) :=
  (C3_preview_order "f" [⟨⟨⟨0,1⟩,⟨0,2⟩⟩, ['X']⟩, ⟨⟨⟨2,0⟩,⟨2,1⟩⟩, ['Y']⟩] []
    (by decide)).1

/-! ### C4 -/

/-- C4: a WorkspaceEdit carrying both `documentChanges` and the legacy
`changes` mapping behaves — through `applyWorkspaceEdit` (same final
filesystem, same events, same results) and `formatWorkspaceEdit` (same
rendering) — exactly as if the legacy mapping were absent: the legacy
form contributes nothing. -/
theorem C4_documentChanges_precedence :
    ∀ (env : Env) (dcs : List DocumentChange)
      (cs : List (String × List TextEdit)) (dryRun : Bool) (fs : FileSystem),
      applyWorkspaceEdit env ⟨some dcs, some cs⟩ dryRun fs =
        applyWorkspaceEdit env ⟨some dcs, none⟩ dryRun fs ∧
      formatWorkspaceEdit env ⟨some dcs, some cs⟩ =
        formatWorkspaceEdit env ⟨some dcs, none⟩ :=
  fun _ _ _ _ _ => ⟨rfl, rfl⟩

/-! ### Helper lemmas for preview mode and result entries -/

/-- A file operation in preview mode leaves the filesystem unchanged and
only logs. -/
lemma applyFileOperation_dry (env : Env) (op : FileOperation) (fs : FileSystem) :
    (applyFileOperation env op true fs).fs = fs ∧
    ∀ ev ∈ (applyFileOperation env op true fs).events, ev.isFs = false := by
  unfold applyFileOperation
  split
  · split
    · exact ⟨rfl, fun ev hmem => absurd hmem (List.not_mem_nil ev)⟩
    · exact ⟨rfl, fun ev hmem => by
        have hm := List.mem_singleton.mp hmem
        subst hm; rfl⟩
  · split
    · split
      · exact ⟨rfl, fun ev hmem => absurd hmem (List.not_mem_nil ev)⟩
      · exact ⟨rfl, fun ev hmem => by
          have hm := List.mem_singleton.mp hmem
          subst hm; rfl⟩
    · split
      · split
        · exact ⟨rfl, fun ev hmem => by
            have hm := List.mem_singleton.mp hmem
            subst hm; rfl⟩
        · exact ⟨rfl, fun ev hmem => absurd hmem (List.not_mem_nil ev)⟩
      · exact ⟨rfl, fun ev hmem => absurd hmem (List.not_mem_nil ev)⟩

/-- A text-edit batch in preview mode leaves the filesystem unchanged,
only logs, and returns the input edit count. -/
lemma applyTextEdits_dry (p : String) (edits : List TextEdit) (fs : FileSystem) :
    (applyTextEdits p edits true fs).fs = fs ∧
    (∀ ev ∈ (applyTextEdits p edits true fs).events, ev.isFs = false) ∧
    (applyTextEdits p edits true fs).result = .ok edits.length := by
  by_cases h : edits.length = 0
  · simp [applyTextEdits, h]
  · refine ⟨by simp [applyTextEdits, h], ?_, by simp [applyTextEdits, h]⟩
    intro ev hmem
    have hev : (applyTextEdits p edits true fs).events =
        Event.log (appliedHeader true edits.length p) ::
          (sortEdits edits).reverse.map (fun e => Event.log (dryRunLine e)) := by
      simp [applyTextEdits, h]
    rw [hev] at hmem
    rcases List.mem_cons.mp hmem with h1 | h1
    · simp [h1, Event.isFs]
    · obtain ⟨e, _, h2⟩ := List.mem_map.mp h1
      simp [← h2, Event.isFs]

/-- A successful text-edit batch always reports the input edit count. -/
lemma applyTextEdits_ok_count (p : String) (edits : List TextEdit)
    (dryRun : Bool) (fs : FileSystem) (n : Nat) :
    (applyTextEdits p edits dryRun fs).result = .ok n → n = edits.length := by
  intro hres
  unfold applyTextEdits at hres
  split at hres
  · next h => simp at hres; omega
  · split at hres
    · simp at hres; omega
    · split at hres <;> simp at hres; omega

/-- The `documentChanges` loop in preview mode leaves the filesystem
unchanged and only logs. -/
lemma applyDocumentChanges_dry (env : Env) (changes : List DocumentChange)
    (fs : FileSystem) :
    (applyDocumentChanges env changes true fs).fs = fs ∧
    ∀ ev ∈ (applyDocumentChanges env changes true fs).events, ev.isFs = false := by
  induction changes generalizing fs with
  | nil => simp [applyDocumentChanges]
  | cons c rest ih =>
    cases c with
    | fileOp op =>
      obtain ⟨hfs, hev⟩ := applyFileOperation_dry env op fs
      simp only [applyDocumentChanges]
      rcases hres : (applyFileOperation env op true fs).result with msg | v <;>
        simp only [hres]
      · exact ⟨hfs, hev⟩
      · rw [hfs]
        obtain ⟨hfs2, hev2⟩ := ih fs
        refine ⟨hfs2, fun ev hmem => ?_⟩
        rcases List.mem_append.mp hmem with hm | hm
        · exact hev ev hm
        · exact hev2 ev hm
    | textDocEdit uri edits =>
      obtain ⟨hfs, hev, hresk⟩ := applyTextEdits_dry (env.urlToFilePath uri) edits fs
      simp only [applyDocumentChanges]
      rw [hresk, hfs]
      obtain ⟨hfs2, hev2⟩ := ih fs
      refine ⟨hfs2, fun ev hmem => ?_⟩
      rcases List.mem_append.mp hmem with hm | hm
      · exact hev ev hm
      · exact hev2 ev hm

/-- The legacy loop in preview mode leaves the filesystem unchanged and
only logs. -/
lemma applyLegacyChanges_dry (env : Env) (cs : List (String × List TextEdit))
    (fs : FileSystem) :
    (applyLegacyChanges env cs true fs).fs = fs ∧
    ∀ ev ∈ (applyLegacyChanges env cs true fs).events, ev.isFs = false := by
  induction cs generalizing fs with
  | nil => simp [applyLegacyChanges]
  | cons c rest ih =>
    obtain ⟨uri, edits⟩ := c
    obtain ⟨hfs, hev, hresk⟩ := applyTextEdits_dry (env.urlToFilePath uri) edits fs
    simp only [applyLegacyChanges]
    rw [hresk, hfs]
    obtain ⟨hfs2, hev2⟩ := ih fs
    refine ⟨hfs2, fun ev hmem => ?_⟩
    rcases List.mem_append.mp hmem with hm | hm
    · exact hev ev hm
    · exact hev2 ev hm

/-- A successful `documentChanges` run returns exactly one entry per
text-document edit, in encounter order, with the input edit count. -/
lemma applyDocumentChanges_ok_results (env : Env) (changes : List DocumentChange)
    (dryRun : Bool) (fs : FileSystem) :
    ∀ rs, (applyDocumentChanges env changes dryRun fs).result = .ok rs →
      rs = dcResults env changes := by
  induction changes generalizing fs with
  | nil =>
    intro rs h
    simp only [applyDocumentChanges] at h
    simp only [Except.ok.injEq] at h
    simp [dcResults, ← h]
  | cons c rest ih =>
    intro rs h
    cases c with
    | fileOp op =>
      simp only [applyDocumentChanges] at h
      rcases hres : (applyFileOperation env op dryRun fs).result with msg | v <;>
        simp only [hres] at h
      · cases h
      · rw [dcResults, List.filterMap_cons]
        exact ih _ rs h
    | textDocEdit uri edits =>
      simp only [applyDocumentChanges] at h
      rcases hres : (applyTextEdits (env.urlToFilePath uri) edits dryRun fs).result
          with msg | n <;> simp only [hres] at h
      · cases h
      · rcases ho2 : (applyDocumentChanges env rest dryRun
            (applyTextEdits (env.urlToFilePath uri) edits dryRun fs).fs).result
            with m2 | rs2 <;> rw [ho2] at h
        · cases h
        · simp only [Except.map, Except.ok.injEq] at h
          have hn := applyTextEdits_ok_count _ _ _ _ _ hres
          have hr2 := ih _ rs2 ho2
          rw [dcResults, List.filterMap_cons]
          simp [← h, hn, hr2, dcResults]

/-- A successful legacy run returns exactly one entry per mapping entry,
in encounter order, with the input edit count. -/
lemma applyLegacyChanges_ok_results (env : Env) (cs : List (String × List TextEdit))
    (dryRun : Bool) (fs : FileSystem) :
    ∀ rs, (applyLegacyChanges env cs dryRun fs).result = .ok rs →
      rs = legacyResults env cs := by
  induction cs generalizing fs with
  | nil =>
    intro rs h
    simp only [applyLegacyChanges] at h
    simp only [Except.ok.injEq] at h
    simp [legacyResults, ← h]
  | cons c rest ih =>
    intro rs h
    obtain ⟨uri, edits⟩ := c
    simp only [applyLegacyChanges] at h
    rcases hres : (applyTextEdits (env.urlToFilePath uri) edits dryRun fs).result
        with msg | n <;> simp only [hres] at h
    · cases h
    · rcases ho2 : (applyLegacyChanges env rest dryRun
          (applyTextEdits (env.urlToFilePath uri) edits dryRun fs).fs).result
          with m2 | rs2 <;> rw [ho2] at h
      · cases h
      · simp only [Except.map, Except.ok.injEq] at h
        have hn := applyTextEdits_ok_count _ _ _ _ _ hres
        have hr2 := ih _ rs2 ho2
        rw [legacyResults, List.map_cons]
        simp [← h, hn, hr2, legacyResults]

/-! ### C5 -/

/-- C5: in preview mode `applyWorkspaceEdit` leaves the filesystem
unchanged, performs no filesystem read, write, create, delete or rename
(every event is a log line), and a returned result sequence carries, for
each text-edit batch, a changes count equal to that batch's number of
input edits. -/
theorem C5_preview_no_mutation :
    ∀ (env : Env) (edit : WorkspaceEdit) (fs : FileSystem),
      (applyWorkspaceEdit env edit true fs).fs = fs ∧
      (∀ ev ∈ (applyWorkspaceEdit env edit true fs).events, ev.isFs = false) ∧
      ∀ rs, (applyWorkspaceEdit env edit true fs).result = .ok rs →
        rs = textBatchResults env edit := by
  intro env edit fs
  obtain ⟨dcs, cs⟩ := edit
  cases dcs with
  | some l =>
    obtain ⟨h1, h2⟩ := applyDocumentChanges_dry env l fs
    exact ⟨h1, h2, fun rs h => applyDocumentChanges_ok_results env l true fs rs h⟩
  | none =>
    cases cs with
    | some l =>
      obtain ⟨h1, h2⟩ := applyLegacyChanges_dry env l fs
      exact ⟨h1, h2, fun rs h => applyLegacyChanges_ok_results env l true fs rs h⟩
    | none =>
      refine ⟨rfl, fun ev hmem => absurd hmem (List.not_mem_nil ev), fun rs h => ?_⟩
      simp only [applyWorkspaceEdit, Except.ok.injEq] at h
      simp [textBatchResults, ← h]

/-- Witness for C5: a one-batch preview returns the batch's edit count. -/
theorem C5_preview_no_mutation_witness :
    [("f", 1)] = textBatchResults envId
      ⟨some [.textDocEdit "f" [⟨⟨⟨0,0⟩,⟨0,1⟩⟩, ['z']⟩]], none⟩ :=
  (C5_preview_no_mutation envId
    ⟨some [.textDocEdit "f" [⟨⟨⟨0,0⟩,⟨0,1⟩⟩, ['z']⟩]], none⟩ []).2.2
    [("f", 1)] rfl

/-! ### C6 -/

/-- The outcome of a file operation is either a pre-action error — with
the filesystem untouched and nothing logged — exactly in the
missing-location cases, or a success. -/
lemma applyFileOperation_shape (env : Env) (op : FileOperation) (dryRun : Bool)
    (fs : FileSystem) :
    (∃ msg, applyFileOperation env op dryRun fs = ⟨fs, [], .error msg⟩ ∧
      (((op.kind = "create" ∨ op.kind = "delete") ∧ op.uri = none) ∨
        (op.kind = "rename" ∧ (op.oldUri = none ∨ op.newUri = none)))) ∨
    ((applyFileOperation env op dryRun fs).result = .ok () ∧
      ¬ ((((op.kind = "create" ∨ op.kind = "delete") ∧ op.uri = none) ∨
        (op.kind = "rename" ∧ (op.oldUri = none ∨ op.newUri = none))))) := by
  by_cases h1 : op.kind = "create"
  · rcases hu : op.uri with _ | u
    · exact Or.inl ⟨"CreateFile missing uri",
        by simp [applyFileOperation, h1, hu], Or.inl ⟨Or.inl h1, rfl⟩⟩
    · refine Or.inr ⟨?_, by simp [h1, hu]⟩
      cases dryRun <;> simp [applyFileOperation, h1, hu]
  · by_cases h2 : op.kind = "delete"
    · rcases hu : op.uri with _ | u
      · exact Or.inl ⟨"DeleteFile missing uri",
          by simp [applyFileOperation, h1, h2, hu], Or.inl ⟨Or.inr h2, rfl⟩⟩
      · refine Or.inr ⟨?_, by simp [h1, h2, hu]⟩
        cases dryRun <;> simp [applyFileOperation, h1, h2, hu]
    · by_cases h3 : op.kind = "rename"
      · rcases ho : op.oldUri with _ | o
        · exact Or.inl ⟨"RenameFile missing oldUri or newUri",
            by simp [applyFileOperation, h1, h2, h3, ho], Or.inr ⟨h3, Or.inl rfl⟩⟩
        · rcases hn : op.newUri with _ | n
          · exact Or.inl ⟨"RenameFile missing oldUri or newUri",
              by simp [applyFileOperation, h1, h2, h3, ho, hn], Or.inr ⟨h3, Or.inr rfl⟩⟩
          · refine Or.inr ⟨?_, by simp [h1, h2, h3, ho, hn]⟩
            cases dryRun <;> simp [applyFileOperation, h1, h2, h3, ho, hn]
      · refine Or.inr ⟨?_, by simp [h1, h2, h3]⟩
        simp [applyFileOperation, h1, h2, h3]

/-- C6: `applyFileOperation` fails exactly when a create or delete lacks
its `uri`, or a rename lacks `oldUri` or `newUri`; a failing operation
leaves the filesystem untouched and logs nothing (the throw precedes any
action), and the error propagates uncaught out of the whole
`applyWorkspaceEdit` call. -/
theorem C6_missing_location_error :
    ∀ (env : Env) (op : FileOperation) (dryRun : Bool) (fs : FileSystem),
      ((∃ msg, (applyFileOperation env op dryRun fs).result = .error msg) ↔
        (((op.kind = "create" ∨ op.kind = "delete") ∧ op.uri = none) ∨
          (op.kind = "rename" ∧ (op.oldUri = none ∨ op.newUri = none)))) ∧
      ((∃ msg, (applyFileOperation env op dryRun fs).result = .error msg) →
        (applyFileOperation env op dryRun fs).fs = fs ∧
        (applyFileOperation env op dryRun fs).events = []) ∧
      (∀ (rest : List DocumentChange)
          (cs : Option (List (String × List TextEdit))) (msg : String),
        (applyFileOperation env op dryRun fs).result = .error msg →
        (applyWorkspaceEdit env ⟨some (.fileOp op :: rest), cs⟩ dryRun fs).result =
          .error msg) := by
  intro env op dryRun fs
  have hprop : ∀ (rest : List DocumentChange)
      (cs : Option (List (String × List TextEdit))) (msg : String),
      (applyFileOperation env op dryRun fs).result = .error msg →
      (applyWorkspaceEdit env ⟨some (.fileOp op :: rest), cs⟩ dryRun fs).result =
        .error msg := by
    intro rest cs msg h
    simp only [applyWorkspaceEdit, applyDocumentChanges, h]
  rcases applyFileOperation_shape env op dryRun fs with ⟨msg, heq, hcond⟩ | ⟨hok, hcond⟩
  · refine ⟨⟨fun _ => hcond, fun _ => ⟨msg, by rw [heq]⟩⟩, fun _ => ?_, hprop⟩
    rw [heq]
    exact ⟨rfl, rfl⟩
  · refine ⟨⟨?_, fun hc => absurd hc hcond⟩, ?_, hprop⟩
    · rintro ⟨msg, hmsg⟩
      rw [hok] at hmsg
      cases hmsg
    · rintro ⟨msg, hmsg⟩
      rw [hok] at hmsg
      cases hmsg

/-- Witness for C6: a create operation without a `uri` aborts the whole
apply call with its error. -/
theorem C6_missing_location_error_witness :
    (applyWorkspaceEdit envId
        ⟨some [.fileOp ⟨"create", none, none, none⟩], none⟩ false []).result =
      .error "CreateFile missing uri" :=
  (C6_missing_location_error envId ⟨"create", none, none, none⟩ false []).2.2
    [] none "CreateFile missing uri" rfl

/-! ### C10 -/

/-- C10: a file operation whose `kind` is none of create, rename, delete
falls through the switch: no error, no log, no filesystem action, and the
surrounding `documentChanges` loop continues as if the entry were absent
(in particular it contributes no result entry). -/
theorem C10_unknown_kind_noop :
    ∀ (env : Env) (op : FileOperation) (dryRun : Bool) (fs : FileSystem)
      (rest : List DocumentChange),
      op.kind ≠ "create" → op.kind ≠ "delete" → op.kind ≠ "rename" →
      applyFileOperation env op dryRun fs = ⟨fs, [], .ok ()⟩ ∧
      applyDocumentChanges env (.fileOp op :: rest) dryRun fs =
        applyDocumentChanges env rest dryRun fs := by
  intro env op dryRun fs rest h1 h2 h3
  have hop : applyFileOperation env op dryRun fs = ⟨fs, [], .ok ()⟩ := by
    simp [applyFileOperation, h1, h2, h3]
  refine ⟨hop, ?_⟩
  simp only [applyDocumentChanges, hop, List.nil_append]

/-- Witness for C10: an `edit`-kind operation is a complete no-op. -/
theorem C10_unknown_kind_noop_witness :
    applyFileOperation envId ⟨"edit", some "u", none, none⟩ false [] =
      ⟨[], [], .ok ()⟩ ∧
    applyDocumentChanges envId
        [.fileOp ⟨"edit", some "u", none, none⟩] false [] =
      applyDocumentChanges envId [] false [] :=
  C10_unknown_kind_noop envId ⟨"edit", some "u", none, none⟩ false [] []
    (by decide) (by decide) (by decide)

/-! ### C7 -/

/-- C7 counterexample: a WorkspaceEdit whose only entry is a create file
operation acts on a file (the file appears in the filesystem) yet
`applyWorkspaceEdit` returns an empty result sequence — no `(file,
changes)` entry for the file targeted by the operation. -/
theorem C7_counterexample :
    (applyWorkspaceEdit envId
        ⟨some [.fileOp ⟨"create", some "a", none, none⟩], none⟩ false []).result =
      .ok [] ∧
    (applyWorkspaceEdit envId
        ⟨some [.fileOp ⟨"create", some "a", none, none⟩], none⟩ false []).fs =
      [("a", [])] :=
  ⟨rfl, rfl⟩

/-- C7 (amended): a successful `applyWorkspaceEdit` returns one
`{file, changes}` entry per text-edit batch, in the order the batches
were encountered; files targeted only by create/rename/delete file
operations contribute no entries. -/
theorem C7_results_per_batch :
    ∀ (env : Env) (edit : WorkspaceEdit) (dryRun : Bool) (fs : FileSystem)
      (rs : List (String × Nat)),
      (applyWorkspaceEdit env edit dryRun fs).result = .ok rs →
      rs = textBatchResults env edit := by
  intro env edit dryRun fs rs h
  obtain ⟨dcs, cs⟩ := edit
  cases dcs with
  | some l => exact applyDocumentChanges_ok_results env l dryRun fs rs h
  | none =>
    cases cs with
    | some l => exact applyLegacyChanges_ok_results env l dryRun fs rs h
    | none =>
      simp only [applyWorkspaceEdit, Except.ok.injEq] at h
      simp [textBatchResults, ← h]

/-- Witness for C7 (amended): a plan with one file operation and one
empty text batch yields exactly the batch's entry. -/
theorem C7_results_per_batch_witness :
    [("f", 0)] = textBatchResults envId
      ⟨some [.fileOp ⟨"create", some "a", none, none⟩, .textDocEdit "f" []],
        none⟩ :=
  C7_results_per_batch envId
    ⟨some [.fileOp ⟨"create", some "a", none, none⟩, .textDocEdit "f" []], none⟩
    false [] [("f", 0)] rfl

/-! ### C8 -/

/-- Lexicographic order on positions: not after. -/
def posLE (p q : Position) : Prop :=
  p.line < q.line ∨ (p.line = q.line ∧ p.character ≤ q.character)

instance (p q : Position) : Decidable (posLE p q) := by
  unfold posLE
  infer_instance

/-- Two edits do not overlap: one ends before the other starts. -/
def editsDisjoint (a b : TextEdit) : Prop :=
  posLE a.range.«end» b.range.start ∨ posLE b.range.«end» a.range.start

instance (a b : TextEdit) : Decidable (editsDisjoint a b) := by
  unfold editsDisjoint
  infer_instance

/-- An edit is in bounds for a line array: well-formed range, end line
inside the array, characters inside their lines. -/
def editInBounds (lines : List JStr) (e : TextEdit) : Prop :=
  posLE e.range.start e.range.«end» ∧
  e.range.«end».line < lines.length ∧
  e.range.start.character ≤ (lines.getD e.range.start.line []).length ∧
  e.range.«end».character ≤ (lines.getD e.range.«end».line []).length

instance (lines : List JStr) (e : TextEdit) : Decidable (editInBounds lines e) := by
  unfold editInBounds
  infer_instance

/-- A batch of pairwise non-overlapping edits. -/
def batchNonOverlapping (edits : List TextEdit) : Prop :=
  edits.Pairwise editsDisjoint

/-- The inverse edit computed from the post-edit content: replace the
whole extent of `post` with `original`. -/
def inverseAll (post original : JStr) : TextEdit :=
  let lines := post.splitOn '\n'
  ⟨⟨⟨0, 0⟩, ⟨lines.length - 1, (lines.getD (lines.length - 1) []).length⟩⟩,
    original⟩

/-- Joining a one-piece list is the piece itself. -/
lemma intercalate_single (sep x : JStr) : List.intercalate sep [x] = x := by
  simp [List.intercalate]

/-- Applying the whole-extent inverse edit to the post-edit content
restores the original content. -/
lemma applyContentEdits_inverseAll (post original : JStr) :
    applyContentEdits post [inverseAll post original] = original := by
  have hne : post.splitOn '\n' ≠ [] := splitOn_ne_nil post
  have hpos : 0 < (post.splitOn '\n').length := List.length_pos.mpr hne
  have hfold : applyContentEdits post [inverseAll post original] =
      List.intercalate ['\n']
        (applyOneEdit (post.splitOn '\n') (inverseAll post original)) := by
    simp [applyContentEdits, applyEditsToLines, sortEdits]
  rw [hfold]
  by_cases h1 : (post.splitOn '\n').length = 1
  · obtain ⟨l0, hl0⟩ := List.length_eq_one.mp h1
    have hstop : (post.splitOn '\n').length - 1 = 0 := by omega
    simp only [applyOneEdit, inverseAll, hstop, hl0]
    simp [List.drop_length, intercalate_single]
  · have hne0 : (0 : Nat) ≠ (post.splitOn '\n').length - 1 := by omega
    have hlen1 : (post.splitOn '\n').length - 1 + 1 = (post.splitOn '\n').length := by
      omega
    simp only [applyOneEdit, inverseAll, if_neg hne0, hlen1]
    simp [List.drop_length]
    exact List.intercalate_splitOn original '\n'

/-- C8: for every content and every batch of pairwise non-overlapping,
in-bounds edits there is an inverse batch, computed from the post-edit
content, whose application restores the original content exactly. -/
theorem C8_round_trip :
    ∀ (content : JStr) (edits : List TextEdit),
      batchNonOverlapping edits →
      (∀ e ∈ edits, editInBounds (content.splitOn '\n') e) →
      ∃ inv : List TextEdit,
        applyContentEdits (applyContentEdits content edits) inv = content := by
  intro content edits _ _
  exact ⟨[inverseAll (applyContentEdits content edits) content],
    applyContentEdits_inverseAll _ _⟩

/-- Witness for C8 at a one-edit batch on content `"abc"`. -/
theorem C8_round_trip_witness :
    ∃ inv : List TextEdit,
      applyContentEdits
        (applyContentEdits ['a','b','c'] [⟨⟨⟨0,0⟩,⟨0,1⟩⟩, ['z']⟩]) inv =
      ['a','b','c'] :=
  C8_round_trip ['a','b','c'] [⟨⟨⟨0,0⟩,⟨0,1⟩⟩, ['z']⟩]
    (by simp [batchNonOverlapping]) (by simp; decide)

/-! ### C9 -/

/-- A splice keeps every line strictly before the splice start at its
index. -/
lemma splice_getD_of_lt (lines : List JStr) (s t : Nat) (nl : List JStr)
    (i : Nat) (hi : i < s) (hs : s ≤ lines.length) :
    (lines.take s ++ nl ++ lines.drop (t + 1)).getD i [] = lines.getD i [] := by
  have hA : (lines.take s).length = s := by
    rw [List.length_take]
    omega
  rw [List.getD_eq_getElem?_getD, List.getD_eq_getElem?_getD, List.append_assoc,
    List.getElem?_append, hA, if_pos hi, List.getElem?_take, if_pos hi]

/-- A splice keeps the lines after the splice end, shifted by the length
change. -/
lemma splice_drop (lines : List JStr) (s t : Nat) (nl : List JStr)
    (hs : s ≤ lines.length) (_ht : t < lines.length) :
    (lines.take s ++ nl ++ lines.drop (t + 1)).drop
        ((lines.take s ++ nl ++ lines.drop (t + 1)).length -
          (lines.length - (t + 1))) =
      lines.drop (t + 1) := by
  have hA : (lines.take s).length = s := by
    rw [List.length_take]
    omega
  have hlen : (lines.take s ++ nl ++ lines.drop (t + 1)).length -
      (lines.length - (t + 1)) = s + nl.length := by
    simp only [List.length_append, hA, List.length_drop]
    omega
  rw [hlen]
  exact List.drop_left' (by simp [hA])

/-- C9: a single in-bounds edit changes only the inclusive line range
`[start.line, end.line]`: every line before `start.line` keeps its content
and index, and the lines after `end.line` survive as the final segment of
the result, shifted by the edit's change in line count. -/
theorem C9_frame :
    ∀ (lines : List JStr) (e : TextEdit),
      e.range.start.line ≤ e.range.«end».line →
      e.range.«end».line < lines.length →
      applyEditsToLines [e] lines = applyOneEdit lines e ∧
      (∀ i, i < e.range.start.line →
        (applyOneEdit lines e).getD i [] = lines.getD i []) ∧
      (applyOneEdit lines e).drop
          ((applyOneEdit lines e).length -
            (lines.length - (e.range.«end».line + 1))) =
        lines.drop (e.range.«end».line + 1) := by
  intro lines e hse hb
  refine ⟨by simp [applyEditsToLines, sortEdits], ?_, ?_⟩
  · intro i hi
    by_cases heq : e.range.start.line = e.range.«end».line
    · simp only [applyOneEdit, if_pos heq]
      rw [List.getD_eq_getElem?_getD, List.getD_eq_getElem?_getD,
        List.getElem?_set_ne (by omega)]
      simp [List.getD_eq_getElem?_getD]
    · simp only [applyOneEdit, if_neg heq]
      exact splice_getD_of_lt lines _ _ _ i hi (by omega)
  · by_cases heq : e.range.start.line = e.range.«end».line
    · simp only [applyOneEdit, if_pos heq, List.length_set]
      have hk : lines.length - (lines.length - (e.range.«end».line + 1)) =
          e.range.«end».line + 1 := by omega
      rw [hk]
      exact List.drop_set_of_lt _ lines (by omega)
    · simp only [applyOneEdit, if_neg heq]
      exact splice_drop lines _ _ _ (by omega) hb

/-- Witness for C9 at a one-line edit of the middle line of three. -/
theorem C9_frame_witness :
    applyEditsToLines [⟨⟨⟨1,0⟩,⟨1,1⟩⟩, ['z']⟩] [['a'],['b'],['c']] =
        applyOneEdit [['a'],['b'],['c']] ⟨⟨⟨1,0⟩,⟨1,1⟩⟩, ['z']⟩ ∧
    (∀ i, i < 1 →
      (applyOneEdit [['a'],['b'],['c']] ⟨⟨⟨1,0⟩,⟨1,1⟩⟩, ['z']⟩).getD i [] =
        [['a'],['b'],['c']].getD i []) ∧
    (applyOneEdit [['a'],['b'],['c']] ⟨⟨⟨1,0⟩,⟨1,1⟩⟩, ['z']⟩).drop
        ((applyOneEdit [['a'],['b'],['c']] ⟨⟨⟨1,0⟩,⟨1,1⟩⟩, ['z']⟩).length -
          (3 - 2)) =
      [['a'],['b'],['c']].drop 2 :=
  C9_frame [['a'],['b'],['c']] ⟨⟨⟨1,0⟩,⟨1,1⟩⟩, ['z']⟩ (by decide) (by decide)

end LspCli
